import Mathlib

/-!
Verification of the xray-qa hand-joint annotation QA tool.

Shallow embedding conventions:
* Python numbers (ints and floats) are modelled exactly: ints as `ℤ`/`ℕ`,
  floats as `ℚ` (exact-arithmetic idealization of IEEE doubles).
* Python strings are modelled as `List Char`, compared like Python strings,
  i.e. lexicographically by code point.
* numpy arrays are `List ℚ` / `List (List ℚ)`; numpy primitives
  (`gradient`, `mean`, `argmax`, slicing, `transpose`) are given their
  documented meanings on these lists.
* `assert` failures and raised exceptions are modelled with `Option`/`Except`.
-/

/-- A Python string: a list of characters ordered by code point. -/
abbrev PyStr := List Char

/-- Convenience injection of a Lean string literal into the `PyStr` model. -/
def pystr (s : String) : PyStr := s.data

/-! ## Candidate selection (`bonefinder.select_qof`)

`select_qof` reads the QOF table into `sets`, a list of
`(patient_visit, pts_file, qof_sum)` tuples, then performs a single linear
pass that keeps, for each contiguous patient/visit group, the entry whose
`qof_sum` is maximal; on a key change (and once after the loop) it copies the
best file to `<patient_visit>.pts`.  Crucially, `qof_sum = cols[1]` is never
converted to a number: the comparison `s[2] > it_max_qof_sum` is Python
*string* comparison.  The file I/O is abstracted away: the model returns the
list of `(group key, chosen source file)` pairs in emission order. -/

/-- One row of the parsed QOF table: `(patient_visit, pts_file, qof_sum)`.
`qof` stays a string, exactly as in the source. -/
structure QRec where
  pv : PyStr
  file : PyStr
  qof : PyStr
deriving DecidableEq, Repr

/-- One iteration of the `for idx, s in enumerate(sets)` loop of `select_qof`.
The state is `(it_patient_visit, best-so-far record, emitted copies)`; the
running best record stands for `it_max_qof_sum`/`it_max_qof_sum_idx` (the
code keeps an index into `sets`, which denotes exactly this record). -/
def qofStep (st : PyStr × QRec × List (PyStr × PyStr)) (r : QRec) :
    PyStr × QRec × List (PyStr × PyStr) :=
  if r.pv = st.1 then
    -- Same patient/visit: update the max when strictly greater (string `>`).
    if st.2.1.qof < r.qof then (st.1, r, st.2.2) else st
  else
    -- New patient/visit: first write the previous best, then restart.
    (r.pv, r, st.2.2 ++ [(st.1, st.2.1.file)])

/-- Embedding of `bonefinder.select_qof` after parsing, with file copies reified as output
pairs.  On an empty table the source raises `IndexError` at `sets[0]`,
modelled as `none`.  The loop runs over *all* of `sets` (including index 0,
which compares the first record with itself and is a no-op). -/
def select_qof (sets : List QRec) : Option (List (PyStr × PyStr)) :=
  match sets with
  | [] => none
  | s0 :: rest =>
    let st := (s0 :: rest).foldl qofStep (s0.pv, s0, [])
    -- Handle the last one
    some (st.2.2 ++ [(st.1, st.2.1.file)])

/-- The record of a group with the maximal `qof` string, first-seen on ties:
the best is replaced only when a later score compares strictly greater. -/
def groupMax (r0 : QRec) (rs : List QRec) : QRec :=
  rs.foldl (fun b r => if b.qof < r.qof then r else b) r0

/-- Reference run of the loop over a list of groups (each a head record plus
the rest of its rows): returns the final `(key, best)` state together with
the copies emitted at each key change. -/
def runGroups (key : PyStr) (best : QRec) :
    List (QRec × List QRec) → PyStr × QRec × List (PyStr × PyStr)
  | [] => (key, best, [])
  | g :: gs =>
    let t := runGroups g.1.pv (groupMax g.1 g.2) gs
    (t.1, t.2.1, (key, best.file) :: t.2.2)

/-! ## Decimal digit strings (Python `str`/`int` on integers)

Used to state what the *numeric* value of a score string is (claim C1) and
to embed `Joint.save_format` / `Joint.from_line` (claim C8). -/

/-- The character of a decimal digit `d < 10`. -/
def digitChar (d : ℕ) : Char := Char.ofNat (48 + d)

/-- The numeric value of a decimal digit character. -/
def charVal (c : Char) : ℕ := c.toNat - 48

/-- Whether a character is a decimal digit. -/
def isDigitChar (c : Char) : Bool := decide (48 ≤ c.toNat) && decide (c.toNat ≤ 57)

/-- Python `str` of a natural number: decimal digits, most significant
first. -/
def natChars (n : ℕ) : PyStr :=
  if n = 0 then ['0'] else (Nat.digits 10 n).reverse.map digitChar

/-- The numeric value of a decimal digit string: what Python `int` returns on
a canonical unsigned decimal literal. -/
def parseNat (cs : PyStr) : ℕ := Nat.ofDigits 10 ((cs.map charVal).reverse)

/-! ## numpy primitives on rational lists -/

/-- Embedding of `np.gradient` with unit spacing: one-sided differences at the edges,
central differences inside.  (numpy raises on arrays of fewer than two
elements; such inputs do not occur below.) -/
def npGradient (l : List ℚ) : List ℚ :=
  (List.range l.length).map fun i =>
    if i = 0 then l.getD 1 0 - l.getD 0 0
    else if i = l.length - 1 then l.getD i 0 - l.getD (i - 1) 0
    else (l.getD (i + 1) 0 - l.getD (i - 1) 0) / 2

/-- Embedding of `np.mean` of a one-dimensional array. -/
def listMean (l : List ℚ) : ℚ := l.sum / l.length

/-- Embedding of `np.max` of a one-dimensional array (numpy raises on an empty array;
the `headD` seed is irrelevant for nonempty input). -/
def listMax (l : List ℚ) : ℚ := l.foldl max (l.headD 0)

/-- Slicing `image[:, a:b]`: keep columns `a` (inclusive) to `b` (exclusive). -/
def trimCols (image : List (List ℚ)) (a b : ℕ) : List (List ℚ) :=
  image.map fun row => (row.drop a).take (b - a)

/-- numpy transposition of a rectangular array: entry `(j, i)` of the result
is entry `(i, j)` of the input. -/
def matTranspose (m : List (List ℚ)) : List (List ℚ) :=
  (List.range (m.headD []).length).map fun j => m.map fun row => row.getD j 0

/-! ## Gap measurement, Stage 2 (`measure.measure_gaps`)

The source restricts the image to the horizontal range, computes the
per-column absolute gradient down the rows, averages across columns into one
profile over rows (`grad_avg`), thresholds at `0.6 * max`, builds runs of
threshold rows merged across gaps of at most `tolerance = 5`, and returns
`None` when no run was collected.  The run-collection loop appends a run
only when a break occurs, so the run in progress when the input ends is
never appended.  The float literal `0.6` is idealized as `3/5`. -/

/-- The profile `grad_avg`: the column-averaged absolute row-gradient profile of the
patch restricted to the horizontal range. -/
def gradProfile (image : List (List ℚ)) (hr : ℕ × ℕ) : List ℚ :=
  let trim := trimCols image hr.1 hr.2
  let col_grads := (matTranspose trim).map fun col => (npGradient col).map (|·|)
  (matTranspose col_grads).map listMean

/-- Embedding of `np.argwhere(grad_avg >= np.max(grad_avg) * threshold)`: the row indices
meeting the threshold, in increasing order. -/
def threshIndices (image : List (List ℚ)) (hr : ℕ × ℕ) : List ℕ :=
  let g := gradProfile image hr
  (List.range g.length).filter fun i => decide (listMax g * (3 / 5) ≤ g.getD i 0)

/-- The run-collection loop of `measure_gaps`, with state
`(start, prev, remaining indices)`: a run `(start, prev)` is emitted when the
next index is more than `tolerance` past `prev`, restarting both `start` and
`prev` at that index; otherwise only `prev` advances to the current index.
Exactly as in the source, the final run is *not* emitted when the indices
run out. -/
def buildRuns (tolerance : ℕ) : ℕ → ℕ → List ℕ → List (ℕ × ℕ)
  | _, _, [] => []
  | start, prev, i :: rest =>
    if tolerance < i - prev then (start, prev) :: buildRuns tolerance i i rest
    else buildRuns tolerance start i rest

/-- Embedding of `measure.measure_gaps`: returns the chosen `(start, end)` row run, or
`none` when the run list is empty ("No runs found!").  When several runs
survive, the first run containing the vertical midpoint `image.shape[0]//2`
is preferred, falling back to the first run.  (On an image with no rows at
all, `np.max` of the empty profile would raise; the empty-index branch is
modelled as `none`.) -/
def measure_gaps (image : List (List ℚ)) (hr : ℕ × ℕ) : Option (ℕ × ℕ) :=
  match threshIndices image hr with
  | [] => none
  | t0 :: rest =>
    match buildRuns 5 t0 t0 rest with
    | [] => none
    | r0 :: rs =>
      if rs = [] then some r0
      else some (((r0 :: rs).find? fun se =>
        decide (se.1 ≤ image.length / 2) && decide (image.length / 2 < se.2)).getD r0)

/-! ## Gap measurement, Stage 1 (`measure.find_horizontal_range`)

The source averages the top and bottom `tb_rows = 5` rows into one profile,
fits a degree-6 polynomial to it (`numpy.polynomial.polynomial.polyfit`,
least squares), takes the absolute gradient of the fitted values, discards
`ignore_cols = 25` columns at each edge, splits the remainder at its
midpoint and takes the argmax of each half, mapping the two indices back to
original column coordinates.  The least-squares fit is embedded as the
solution of the normal equations by Gaussian elimination over `ℚ` (for a
full-column-rank Vandermonde system — distinct sample points, more points
than the degree — this is exactly the least-squares solution `lstsq`
computes); the fitted values play no role in the bounds invariant.  The
plot-only `tb_prime` (`np.gradient(tb_avg, 3)`) is omitted. -/

/-- Eliminate the leading column of `row` against the pivot row. -/
def rowReduce (piv row : List ℚ) : List ℚ :=
  let c := row.headD 0 / piv.headD 0
  (((row.zip piv).map fun p => p.1 - c * p.2).tail)

/-- Forward elimination with partial pivoting (fuel = number of rows):
produces the triangular system, each row one entry shorter than the last. -/
def gaussTriFuel : ℕ → List (List ℚ) → List (List ℚ)
  | 0, _ => []
  | _ + 1, [] => []
  | n + 1, r :: rs =>
    let all := r :: rs
    let j := all.findIdx fun row => decide (row.headD 0 ≠ 0)
    let piv := all.getD j r
    let rest := all.eraseIdx j
    piv :: gaussTriFuel n (rest.map fun row => rowReduce piv row)

/-- Back substitution on the triangular system (each row is the coefficients
from its pivot column on, followed by the right-hand side). -/
def backSub (tri : List (List ℚ)) : List ℚ :=
  tri.reverse.foldl
    (fun solved row =>
      (row.getLastD 0 - ((row.tail.dropLast.zip solved).map fun p => p.1 * p.2).sum) /
          row.headD 0 :: solved)
    []

/-- Solve the linear system given as an augmented matrix. -/
def gaussSolve (aug : List (List ℚ)) : List ℚ := backSub (gaussTriFuel aug.length aug)

/-- Embedding of `numpy.polynomial.polynomial.polyfit xs ys deg`: least-squares
polynomial coefficients `c₀ … c_deg`, via the normal equations
`(Vᵀ V) c = Vᵀ y` of the Vandermonde system. -/
def polyfit (xs ys : List ℚ) (deg : ℕ) : List ℚ :=
  gaussSolve ((List.range (deg + 1)).map fun i =>
    ((List.range (deg + 1)).map fun j => (xs.map fun x => x ^ (i + j)).sum) ++
      [((xs.zip ys).map fun p => p.1 ^ i * p.2).sum])

/-- Evaluation of a coefficient list `c₀ … c_deg` at `x`. -/
def polyEval (cs : List ℚ) (x : ℚ) : ℚ := (cs.enum.map fun p => p.2 * x ^ p.1).sum

/-- Embedding of `np.argmax`: index of the first occurrence of the maximum (numpy raises
on an empty array; such inputs do not occur below). -/
def listArgmax (l : List ℚ) : ℕ := l.findIdx fun x => decide (listMax l ≤ x)

/-- The column count `image.shape[1]` of a rectangular image. -/
def numCols (image : List (List ℚ)) : ℕ := (image.headD []).length

/-- The profile `poly_prime` of `find_horizontal_range`: average the `tb_rows = 5` top
and bottom rows per column, fit the degree-6 polynomial over all columns,
and take the absolute gradient of the fitted values. -/
def polyProfile (image : List (List ℚ)) : List ℚ :=
  let cols_range := (List.range (numCols image)).map fun n : ℕ => (n : ℚ)
  let tb := image.take 5 ++ image.drop (image.length - 5)
  let tb_avg := (matTranspose tb).map listMean
  let tb_poly := cols_range.map (polyEval (polyfit cols_range tb_avg 6))
  (npGradient tb_poly).map (|·|)

/-- Embedding of `measure.find_horizontal_range`: discard `ignore_cols = 25` columns at
each edge of the gradient profile, split the remainder at its midpoint, and
return the argmax of each half offset back to image columns. -/
def find_horizontal_range (image : List (List ℚ)) : ℕ × ℕ :=
  let poly_prime := polyProfile image
  let denoise := (poly_prime.drop 25).take (poly_prime.length - 50)
  let dnpp_1 := denoise.take (denoise.length / 2)
  let dnpp_2 := denoise.drop (denoise.length / 2)
  (listArgmax dnpp_1 + 25, listArgmax dnpp_2 + 25 + denoise.length / 2)

/-! ## Worker pool size (`distance.main`)

Both parallel phases of `distance.main` construct the pool as
`Pool(cpu_count() - 1)` — there is no minimum clamp in the source. -/

/-- The `processes` argument passed to `multiprocessing.Pool` in
`distance.main` (Python integer arithmetic, hence `ℤ`). -/
def pool_processes (cpu_count : ℕ) : ℤ := (cpu_count : ℤ) - 1

/-! ## ROI descriptors (`scan.Joint`) and masks

`Joint` stores a center `(x, y)` (integers in every in-scope construction:
`Joint.from_line` parses them with `int`, and `bonefinder` passes parsed
point coordinates), an angle in radians (a float), and a label.  The
process-wide ROI size configuration `WIDTH`/`HEIGHT` (read from
`xray-qa.cfg` with `int()`) is threaded through as explicit parameters
`W`/`H`.  The transcendental `math.cos`/`math.sin`/`np.sqrt` have no
computable exact embedding; the development is parametric in them
(`cosf`, `sinf`, `sqrtf`) and no claim depends on their values.
The matplotlib patch handles built in `Joint.__init__` are display-only and
are omitted. -/

structure Joint where
  x : ℤ
  y : ℤ
  angle : ℚ
  label : PyStr
deriving DecidableEq, Repr

/-- The default used to state positional indexing of joint lists. -/
def jdefault : Joint := ⟨0, 0, 0, []⟩

/-- Python `int()` on a float: truncation toward zero. -/
def pyInt (q : ℚ) : ℤ := q.num.sign * ((q.num.natAbs / q.den : ℕ) : ℤ)

/-- Embedding of `_convert` inside `Joint.build_mask.convert_coordinates`: translate a
point to the origin, rotate (the source passes `self.angle`, in radians, for
the misnamed `degrees` parameter; `cosv`/`sinv` stand for
`math.cos(degrees)`/`math.sin(degrees)`), translate back, and truncate both
coordinates with `int()`. -/
def rotTrunc (cx cy cosv sinv px py : ℚ) : ℤ × ℤ :=
  let ox := px - cx
  let oy := py - cy
  let rx := ox * cosv - oy * sinv
  let ry := ox * sinv + oy * cosv
  (pyInt (rx + cx), pyInt (ry + cy))

/-- Embedding of `convert_coordinates` of `Joint.build_mask`: the four rotated corners of
the `w × h` rectangle centered at `(cx, cy)`, in the order bottom-right,
top-right, top-left, bottom-left. -/
def rectangleCorners (cx cy w h cosv sinv : ℚ) : List (ℤ × ℤ) :=
  [rotTrunc cx cy cosv sinv (cx + w / 2) (cy + h / 2),
   rotTrunc cx cy cosv sinv (cx + w / 2) (cy - h / 2),
   rotTrunc cx cy cosv sinv (cx - w / 2) (cy - h / 2),
   rotTrunc cx cy cosv sinv (cx - w / 2) (cy + h / 2)]

/-- Modelled from the spec: `cv2.fillPoly` (third-party) rasterizes the ROI's
rotated rectangle "as a filled polygon of value 1 on a zero background", with
"no anti-aliasing; pixel is either fully in or out".  A pixel is in the
convex corner polygon when it lies on one common side of every directed
edge (boundary included). -/
def inPoly (ps : List (ℤ × ℤ)) (c r : ℤ) : Bool :=
  let crosses := (ps.zip (ps.rotate 1)).map fun e =>
    (e.2.1 - e.1.1) * (r - e.1.2) - (e.2.2 - e.1.2) * (c - e.1.1)
  (crosses.all fun v => decide (0 ≤ v)) || (crosses.all fun v => decide (v ≤ 0))

/-- The zero canvas of `rows` rows and `cols` columns with the polygon
filled with ones. -/
def fillPoly (rows cols : ℕ) (ps : List (ℤ × ℤ)) : List (List ℕ) :=
  (List.range rows).map fun r : ℕ =>
    (List.range cols).map fun c : ℕ => if inPoly ps ((c : ℤ)) ((r : ℤ)) then 1 else 0

/-- Embedding of `Joint.build_mask`: rasterize the rotated `W × H` rectangle centered on
the joint onto a zero canvas of shape `(size[1], size[0])`
(`np.zeros((size[1], size[0]))` — row count first). -/
def Joint.build_mask (W H : ℤ) (cosf sinf : ℚ → ℚ) (j : Joint) (size : ℕ × ℕ) :
    List (List ℕ) :=
  fillPoly size.2 size.1
    (rectangleCorners (j.x : ℚ) (j.y : ℚ) (W : ℚ) (H : ℚ) (cosf j.angle) (sinf j.angle))

/-- Count of nonzero entries of a mask (`astype(bool).sum()`). -/
def maskCount (m : List (List ℕ)) : ℕ :=
  (m.map fun row => (row.filter fun v => v != 0).length).sum

/-- Count of positions where both masks are nonzero
(`np.logical_and(im1, im2).sum()`). -/
def maskInter (a b : List (List ℕ)) : ℕ :=
  ((a.zip b).map fun p =>
    ((p.1.zip p.2).filter fun q => q.1 != 0 && q.2 != 0).length).sum

/-- Modelled from the spec: `tools.dice` (the `tools` module is imported by
`scan.py` but absent from the sources) computes the Sørensen–Dice
coefficient `2·|A∩B| / (|A|+|B|)` of the boolean views of two equal-shape
masks, returning `empty_score` when both masks are empty. -/
def dice (a b : List (List ℕ)) (empty_score : ℚ) : ℚ :=
  let im_sum := maskCount a + maskCount b
  if im_sum = 0 then empty_score else 2 * (maskInter a b : ℚ) / (im_sum : ℚ)

/-- Embedding of `Joint.dice_similarity`: build both masks at the given canvas size and
compare them with `dice(…, empty_score=1.0)`. -/
def Joint.dice_similarity (W H : ℤ) (cosf sinf : ℚ → ℚ) (j o : Joint)
    (size : ℕ × ℕ) : ℚ :=
  dice (Joint.build_mask W H cosf sinf j size) (Joint.build_mask W H cosf sinf o size) 1

/-! ## Pairwise similarity (`scan.Scan`)

A `Scan`'s joints are what the comparisons consume; the model takes the
ordered joint lists directly (the image reference only supplies the canvas
size, passed explicitly).  Both set-level comparisons `assert` equal joint
counts; a failed Python `assert` raises, modelled as `Except.error
CompareError.ShapeMismatch` (the spec names this condition
`ShapeMismatch`). -/

/-- The named failure of a set-level comparison on unequal landmark
counts. -/
inductive CompareError where
  | ShapeMismatch
deriving DecidableEq, Repr

/-- Embedding of `Joint.euclidean_distance`: `np.linalg.norm` of the difference of the
`(x, y, angle)` vectors, i.e. the square root of the sum of the squared
component differences (`sqrtf` stands for the float square root). -/
def Joint.euclidean_distance (sqrtf : ℚ → ℚ) (a b : Joint) : ℚ :=
  sqrtf (((a.x : ℚ) - (b.x : ℚ)) ^ 2 + ((a.y : ℚ) - (b.y : ℚ)) ^ 2 +
    (a.angle - b.angle) ^ 2)

/-- Embedding of `Scan.euclidean_distance`: sum of the per-joint distances over the
index-aligned joint lists, after the equal-length `assert`. -/
def Scan.euclidean_distance (sqrtf : ℚ → ℚ) (s o : List Joint) :
    Except CompareError ℚ :=
  if s.length = o.length then
    .ok (((s.zip o).map fun p => Joint.euclidean_distance sqrtf p.1 p.2).sum)
  else .error CompareError.ShapeMismatch

/-- Embedding of `Scan.dice_similarity`: mean (`np.divide(np.sum(dists), len(joints))`) of
the per-joint Dice similarities at the scan's canvas size, after the
equal-length `assert`. -/
def Scan.dice_similarity (W H : ℤ) (cosf sinf : ℚ → ℚ) (s o : List Joint)
    (size : ℕ × ℕ) : Except CompareError ℚ :=
  if s.length = o.length then
    .ok ((((s.zip o).map fun p =>
      Joint.dice_similarity W H cosf sinf p.1 p.2 size).sum) / (s.length : ℚ))
  else .error CompareError.ShapeMismatch

/-- Modelled from the spec: the `count_over` variant of
`Scan.dice_similarity` invoked by `distance._mp_work`
(`x.dice_similarity(y, count_over=tpr_threshold)`) is absent from
`src/scan.py`; per the spec it returns the mean of the per-landmark Dice
scores together with the count of landmarks whose Dice score meets or
exceeds the threshold. -/
def Scan.dice_similarity_count (W H : ℤ) (cosf sinf : ℚ → ℚ) (s o : List Joint)
    (size : ℕ × ℕ) (count_over : ℚ) : Except CompareError (ℚ × ℕ) :=
  if s.length = o.length then
    let dists := (s.zip o).map fun p => Joint.dice_similarity W H cosf sinf p.1 p.2 size
    .ok (dists.sum / (s.length : ℚ), (dists.filter fun d => decide (count_over ≤ d)).length)
  else .error CompareError.ShapeMismatch

/-! ## Text serialization (`Joint.save_format` / `Joint.from_line`)

`save_format` writes `f"{self.label} {self.x} {self.y} {self.angle}"`;
`from_line` splits on single spaces, strips the label, and converts fields
1–3 with `int`, `int`, `float`.  Integer coordinates go through the decimal
embedding exactly.  The float formatting of the angle is runtime behaviour
of the Python float type (`repr` of an IEEE double round-trips exactly), so
the development is parametric in `showFloat`/`parseFloat`, assuming the
round-trip only at the serialized angle. -/

/-- Python `str` of an integer: a minus sign for negatives, then decimal
digits. -/
def intChars (i : ℤ) : PyStr :=
  if i < 0 then '-' :: natChars i.natAbs else natChars i.natAbs

/-- Whether a string is a canonical unsigned decimal literal. -/
def decimalOk (cs : PyStr) : Bool := !cs.isEmpty && cs.all isDigitChar

/-- Python `int()` restricted to canonical decimal literals (optional minus
sign, then digits); other inputs raise `ValueError`, modelled as `none`. -/
def parseInt : PyStr → Option ℤ
  | [] => none
  | c :: rest =>
    if c = '-' then
      if decimalOk rest then some (-(parseNat rest : ℤ)) else none
    else if decimalOk (c :: rest) then some ((parseNat (c :: rest) : ℤ)) else none

/-- The whitespace test of Python `str.strip` (the ASCII cases). -/
def pyIsSpace (c : Char) : Bool := c = ' ' || c = '\t' || c = '\n' || c = '\r'

/-- Python `str.strip()`: drop whitespace from both ends. -/
def pyStrip (cs : PyStr) : PyStr :=
  ((cs.dropWhile pyIsSpace).reverse.dropWhile pyIsSpace).reverse

/-- Python `str.split(sep)` for a one-character separator: split at *every*
occurrence, keeping empty fields. -/
def pySplit (sep : Char) : PyStr → List PyStr
  | [] => [[]]
  | c :: cs =>
    if c = sep then [] :: pySplit sep cs
    else
      match pySplit sep cs with
      | [] => [[c]]
      | t :: ts => (c :: t) :: ts

/-- Embedding of `Joint.save_format`, with the float formatting of the angle abstracted
as `showFloat`. -/
def Joint.save_format (showFloat : ℚ → PyStr) (j : Joint) : PyStr :=
  j.label ++ (' ' :: (intChars j.x ++ (' ' :: (intChars j.y ++ (' ' :: showFloat j.angle)))))

/-- The field conversions of `Joint.from_line`: strip the label, parse `x`
and `y` with `int` and the angle with `float` (abstracted as `parseFloat`);
a missing field (`IndexError`) or failed conversion (`ValueError`) raises,
modelled as `none`.  Fields past the fourth are ignored, as in
`spl[0] … spl[3]`. -/
def parseFields (parseFloat : PyStr → Option ℚ) : List PyStr → Option Joint
  | lbl :: xs :: ys :: angs :: _ =>
    match parseInt xs, parseInt ys, parseFloat angs with
    | some x, some y, some a => some ⟨x, y, a, pyStrip lbl⟩
    | _, _, _ => none
  | _ => none

/-- Embedding of `Joint.from_line`: split on spaces and convert the four fields. -/
def Joint.from_line (parseFloat : PyStr → Option ℚ) (txt : PyStr) : Option Joint :=
  parseFields parseFloat (pySplit ' ' txt)

/-! ## Lemmas and claim theorems -/

lemma groupMax_cons (b r : QRec) (rs : List QRec) :
    groupMax b (r :: rs) = groupMax (if b.qof < r.qof then r else b) rs := rfl

lemma qofStep_same (key : PyStr) (best : QRec) (out : List (PyStr × PyStr))
    (r : QRec) (hr : r.pv = key) :
    qofStep (key, best, out) r = (key, if best.qof < r.qof then r else best, out) := by
  by_cases hq : best.qof < r.qof
  · simp [qofStep, hr, hq]
  · simp [qofStep, hr, hq]

lemma qofStep_new (key : PyStr) (best : QRec) (out : List (PyStr × PyStr))
    (r : QRec) (hr : ¬ r.pv = key) :
    qofStep (key, best, out) r = (r.pv, r, out ++ [(key, best.file)]) := by
  simp [qofStep, hr]

lemma foldl_qofStep_same (key : PyStr) (best : QRec)
    (out : List (PyStr × PyStr)) (rs : List QRec)
    (h : ∀ r ∈ rs, r.pv = key) :
    rs.foldl qofStep (key, best, out) = (key, groupMax best rs, out) := by
  induction rs generalizing best with
  | nil => simp [groupMax]
  | cons r rs ih =>
    have hr : r.pv = key := h r (List.mem_cons_self r rs)
    have hrest : ∀ x ∈ rs, x.pv = key := fun x hx => h x (List.mem_cons_of_mem r hx)
    rw [List.foldl_cons, qofStep_same key best out r hr, groupMax_cons]
    exact ih _ hrest

lemma foldl_qofStep_groups (gs : List (QRec × List QRec)) (key : PyStr)
    (best : QRec) (out : List (PyStr × PyStr))
    (hgrp : ∀ g ∈ gs, ∀ r ∈ g.2, r.pv = g.1.pv)
    (hchain : List.Chain (fun a b => a ≠ b) key (gs.map fun g => g.1.pv)) :
    ((gs.map fun g => g.1 :: g.2).flatten).foldl qofStep (key, best, out) =
      ((runGroups key best gs).1, (runGroups key best gs).2.1,
        out ++ (runGroups key best gs).2.2) := by
  induction gs generalizing key best out with
  | nil => simp [runGroups]
  | cons g gs ih =>
    rw [List.map_cons, List.chain_cons] at hchain
    obtain ⟨hne, hchain'⟩ := hchain
    have hne' : ¬ g.1.pv = key := fun h => hne h.symm
    have hg : ∀ r ∈ g.2, r.pv = g.1.pv := hgrp g (List.mem_cons_self g gs)
    have hgs : ∀ g' ∈ gs, ∀ r ∈ g'.2, r.pv = g'.1.pv :=
      fun g' h' => hgrp g' (List.mem_cons_of_mem g h')
    simp only [List.map_cons, List.flatten_cons, List.foldl_append, List.foldl_cons]
    rw [qofStep_new key best out g.1 hne',
      foldl_qofStep_same g.1.pv g.1 (out ++ [(key, best.file)]) g.2 hg,
      ih g.1.pv (groupMax g.1 g.2) (out ++ [(key, best.file)]) hgs hchain']
    simp [runGroups]

lemma runGroups_out (key : PyStr) (best : QRec) (gs : List (QRec × List QRec)) :
    (runGroups key best gs).2.2 ++
        [((runGroups key best gs).1, (runGroups key best gs).2.1.file)] =
      (key, best.file) :: gs.map (fun g => (g.1.pv, (groupMax g.1 g.2).file)) := by
  induction gs generalizing key best with
  | nil => simp [runGroups]
  | cons g gs ih => simp [runGroups, ih]

lemma digitChar_toNat {d : ℕ} (h : d < 10) : (digitChar d).toNat = 48 + d := by
  interval_cases d <;> rfl

lemma charVal_digitChar {d : ℕ} (h : d < 10) : charVal (digitChar d) = d := by
  simp [charVal, digitChar_toNat h]

lemma natChars_all_digit (n : ℕ) : ∀ c ∈ natChars n, isDigitChar c = true := by
  intro c hc
  unfold natChars at hc
  split at hc
  · rw [List.mem_singleton] at hc
    subst hc
    decide
  · rw [List.mem_map] at hc
    obtain ⟨d, hd, rfl⟩ := hc
    rw [List.mem_reverse] at hd
    have hlt : d < 10 := Nat.digits_lt_base (by norm_num) hd
    simp only [isDigitChar, digitChar_toNat hlt]
    simp
    omega

lemma natChars_ne_nil (n : ℕ) : natChars n ≠ [] := by
  unfold natChars
  split
  · simp
  · simp [Nat.digits_ne_nil_iff_ne_zero, *]

lemma parseNat_natChars (n : ℕ) : parseNat (natChars n) = n := by
  unfold parseNat natChars
  split
  next h => subst h; decide
  next h =>
    have hmap : List.map (charVal ∘ digitChar) (Nat.digits 10 n) = Nat.digits 10 n := by
      have hc : ∀ d ∈ Nat.digits 10 n, (charVal ∘ digitChar) d = id d := fun d hd => by
        simp [charVal_digitChar (Nat.digits_lt_base (by norm_num) hd)]
      rw [List.map_congr_left hc, List.map_id]
    rw [List.map_map, List.map_reverse, List.reverse_reverse, hmap, Nat.ofDigits_digits]

/-- Claim C4: on the table `[(S1,f1,5),(S1,f2,9),(S1,f3,3),(S2,g1,1)]` (all
rows of each scan contiguous), `select_qof` selects `f2` for scan `S1` and
`g1` for scan `S2`: the final group `S2` is flushed after the loop ends, and
the single-candidate group `S2` trivially selects its one record. -/
theorem select_qof_example :
    select_qof [⟨pystr ("S1"), pystr ("f1"), pystr ("5")⟩,
      ⟨pystr ("S1"), pystr ("f2"), pystr ("9")⟩,
      ⟨pystr ("S1"), pystr ("f3"), pystr ("3")⟩,
      ⟨pystr ("S2"), pystr ("g1"), pystr ("1")⟩] =
    some [(pystr ("S1"), pystr ("f2")), (pystr ("S2"), pystr ("g1"))] := by decide

/-- Claim C1 counterexample: on the contiguously grouped table
`[(S1, f1, "9"), (S1, f2, "10")]` the code emits `f1` for `S1`, whose score
has numeric value `9`, although the numeric maximum over the group is `10`
(attained by `f2`): `select_qof` compares score *strings*, and
`"10" < "9"` lexicographically. -/
theorem select_qof_not_numeric_max :
    select_qof [⟨pystr ("S1"), pystr ("f1"), pystr ("9")⟩,
        ⟨pystr ("S1"), pystr ("f2"), pystr ("10")⟩] =
      some [(pystr ("S1"), pystr ("f1"))] ∧
    parseNat (pystr ("9")) < parseNat (pystr ("10")) := by decide

/-- Claim C1 (amended): for every input list of candidate records in which
all records sharing a `scanKey` are contiguous (encoded as a list of
nonempty groups with pairwise-distinct keys), `select_qof` emits for each
`scanKey` exactly one record, and that record's quality score is the maximum
of the group's score *strings* under Python's lexicographic string
comparison (ties and non-exceeding scores keep the first-seen candidate:
the best is updated only when a score compares strictly greater). -/
theorem select_qof_grouped (gs : List (QRec × List QRec)) (hne : gs ≠ [])
    (hgrp : ∀ g ∈ gs, ∀ r ∈ g.2, r.pv = g.1.pv)
    (hdist : (gs.map fun g => g.1.pv).Pairwise (· ≠ ·)) :
    select_qof ((gs.map fun g => g.1 :: g.2).flatten) =
      some (gs.map fun g => (g.1.pv, (groupMax g.1 g.2).file)) := by
  match gs, hne with
  | g :: gs', _ =>
    have hflat : (((g :: gs').map fun g => g.1 :: g.2).flatten) =
        g.1 :: (g.2 ++ ((gs'.map fun g => g.1 :: g.2).flatten)) := by simp
    rw [hflat]
    have hchain : List.Chain (fun a b => a ≠ b) g.1.pv (gs'.map fun g => g.1.pv) := by
      have := hdist.chain'
      rw [List.map_cons] at this
      exact this
    have hg : ∀ r ∈ g.2, r.pv = g.1.pv := hgrp g (List.mem_cons_self g gs')
    have hgs : ∀ g' ∈ gs', ∀ r ∈ g'.2, r.pv = g'.1.pv :=
      fun g' h' => hgrp g' (List.mem_cons_of_mem g h')
    show some _ = _
    rw [List.foldl_cons, qofStep_same g.1.pv g.1 [] g.1 rfl, ite_self,
      List.foldl_append, foldl_qofStep_same g.1.pv g.1 [] g.2 hg,
      foldl_qofStep_groups gs' g.1.pv (groupMax g.1 g.2) [] hgs hchain,
      List.nil_append]
    rw [runGroups_out g.1.pv (groupMax g.1 g.2) gs', List.map_cons]

lemma npGradient_length (l : List ℚ) : (npGradient l).length = l.length := by
  simp [npGradient]

/-- Claim C2 (code bug): on the 4-by-1 image `[[0], [0], [0], [0]]` with
horizontal range `(0, 1)`, every row of the gradient profile meets the
threshold (the profile's peak always does), yet `measure_gaps` returns
`none`: the threshold rows form a single run, and the collection loop never
appends the final run.  The claim (and the spec) say `none` is returned only
when no row meets the threshold. -/
theorem measure_gaps_single_run_bug :
    threshIndices [[0], [0], [0], [0]] (0, 1) ≠ [] ∧
    measure_gaps [[0], [0], [0], [0]] (0, 1) = none := by
  have hprof : gradProfile [[0], [0], [0], [0]] (0, 1) = [0, 0, 0, 0] := by
    simp [gradProfile, trimCols, matTranspose, npGradient, listMean,
      List.range_succ, List.getD]
  have hidx : threshIndices [[0], [0], [0], [0]] (0, 1) = [0, 1, 2, 3] := by
    simp [threshIndices, hprof, listMax, List.range_succ, List.filter, List.getD]
  refine ⟨by rw [hidx]; simp, ?_⟩
  rw [measure_gaps, hidx]
  simp [buildRuns]

lemma foldl_max_mem (t : List ℚ) (a : ℚ) :
    t.foldl max a = a ∨ t.foldl max a ∈ t := by
  induction t generalizing a with
  | nil => exact Or.inl rfl
  | cons b t ih =>
    rcases ih (max a b) with h | h
    · rcases max_choice a b with hm | hm
      · exact Or.inl (by rw [List.foldl_cons, h, hm])
      · exact Or.inr (by rw [List.foldl_cons, h, hm]; exact List.mem_cons_self b t)
    · exact Or.inr (List.mem_cons_of_mem b h)

lemma listMax_mem {l : List ℚ} (h : l ≠ []) : listMax l ∈ l := by
  match l, h with
  | a :: t, _ =>
    unfold listMax
    rcases foldl_max_mem (a :: t) ((a :: t).headD 0) with h' | h'
    · rw [h']; exact List.mem_cons_self a t
    · exact h'

lemma listArgmax_lt_length {l : List ℚ} (h : l ≠ []) : listArgmax l < l.length :=
  List.findIdx_lt_length_of_exists ⟨listMax l, listMax_mem h, by simp⟩

lemma polyProfile_length (image : List (List ℚ)) :
    (polyProfile image).length = numCols image := by
  simp only [polyProfile, List.length_map, npGradient_length, List.length_range]

/-- Claim C10: on every image with at least 52 columns,
`find_horizontal_range` returns `(bone_start, bone_end)` with
`25 ≤ bone_start < bone_end` and `bone_end + 26 ≤ numCols` (that is,
`bone_end ≤ numCols - 26`): the two argmax searches range over the disjoint
left and right halves of the margin-trimmed gradient profile. -/
theorem find_horizontal_range_bounds (image : List (List ℚ))
    (h : 52 ≤ numCols image) :
    25 ≤ (find_horizontal_range image).1 ∧
    (find_horizontal_range image).1 < (find_horizontal_range image).2 ∧
    (find_horizontal_range image).2 + 26 ≤ numCols image := by
  have hpp : (polyProfile image).length = numCols image := polyProfile_length image
  set pp := polyProfile image with hdef
  set d := (pp.drop 25).take (pp.length - 50) with hd
  have hdlen : d.length = numCols image - 50 := by
    rw [hd, List.length_take, List.length_drop, hpp]
    omega
  have hd2 : 2 ≤ d.length := by omega
  have h1len : (d.take (d.length / 2)).length = d.length / 2 := by
    rw [List.length_take]
    omega
  have h2len : (d.drop (d.length / 2)).length = d.length - d.length / 2 := by
    rw [List.length_drop]
  have h1ne : d.take (d.length / 2) ≠ [] := by
    rw [← List.length_pos_iff_ne_nil, h1len]
    omega
  have h2ne : d.drop (d.length / 2) ≠ [] := by
    rw [← List.length_pos_iff_ne_nil, h2len]
    omega
  have ha1 : listArgmax (d.take (d.length / 2)) < d.length / 2 := by
    have := listArgmax_lt_length h1ne
    rwa [h1len] at this
  have ha2 : listArgmax (d.drop (d.length / 2)) < d.length - d.length / 2 := by
    have := listArgmax_lt_length h2ne
    rwa [h2len] at this
  have hval : find_horizontal_range image =
      (listArgmax (d.take (d.length / 2)) + 25,
        listArgmax (d.drop (d.length / 2)) + 25 + d.length / 2) := by
    rw [find_horizontal_range, ← hdef, ← hd]
  rw [hval]
  refine ⟨by omega, by dsimp; omega, by dsimp; omega⟩

/-- Witness for `find_horizontal_range_bounds`: a concrete 1-by-52 image. -/
theorem find_horizontal_range_bounds_witness :
    25 ≤ (find_horizontal_range [List.replicate 52 0]).1 ∧
    (find_horizontal_range [List.replicate 52 0]).1 <
      (find_horizontal_range [List.replicate 52 0]).2 ∧
    (find_horizontal_range [List.replicate 52 0]).2 + 26 ≤
      numCols [List.replicate 52 0] :=
  find_horizontal_range_bounds [List.replicate 52 0] (by simp [numCols])

/-- Claim C7 counterexample: for hardware parallelism `n = 1` (which
satisfies `n ≥ 1`), the requested pool size is `0`, not the claimed minimum
of `1`: the source never clamps, and `multiprocessing.Pool(0)` raises. -/
theorem pool_processes_zero :
    pool_processes 1 = 0 ∧ ¬ (1 ≤ pool_processes 1) := by
  constructor <;> simp [pool_processes]

/-- Claim C7 (amended): for every hardware parallelism value `n ≥ 2`, the
parallel batch comparison dispatches pairs to a worker pool whose size
equals `n - 1`, which is at least `1`; there is no minimum clamp in the
source, so for `n = 1` the requested size is `0` (and `Pool` raises). -/
theorem pool_processes_pred (n : ℕ) (h : 2 ≤ n) :
    pool_processes n = (n : ℤ) - 1 ∧ 1 ≤ pool_processes n := by
  unfold pool_processes
  omega

/-- Witness for `pool_processes_pred` at `n = 4`. -/
theorem pool_processes_pred_witness :
    pool_processes 4 = (4 : ℤ) - 1 ∧ 1 ≤ pool_processes 4 :=
  pool_processes_pred 4 (by omega)

lemma filter_zip_self (row : List ℕ) :
    ((row.zip row).filter fun q => q.1 != 0 && q.2 != 0).length =
      (row.filter fun v => v != 0).length := by
  induction row with
  | nil => rfl
  | cons a row ih =>
    rw [List.zip_cons_cons]
    by_cases ha : a = 0
    · subst ha
      simpa [List.filter] using ih
    · have hb : (a != 0) = true := by simpa using ha
      simp only [List.filter, hb, Bool.and_self]
      simpa [List.length_cons] using ih

lemma maskInter_self (m : List (List ℕ)) : maskInter m m = maskCount m := by
  unfold maskInter maskCount
  induction m with
  | nil => rfl
  | cons row m ih =>
    rw [List.zip_cons_cons, List.map_cons, List.map_cons, List.sum_cons, List.sum_cons,
      filter_zip_self, ih]

lemma dice_self (m : List (List ℕ)) : dice m m 1 = 1 := by
  unfold dice
  by_cases h : maskCount m = 0
  · simp [h]
  · have hsum : maskCount m + maskCount m ≠ 0 := by omega
    rw [if_neg hsum, maskInter_self]
    have hq : ((maskCount m + maskCount m : ℕ) : ℚ) ≠ 0 := Nat.cast_ne_zero.mpr hsum
    push_cast at hq ⊢
    field_simp
    ring

/-- Claim C6: for every joint descriptor and canvas size (and any values of
the configured ROI size and of the trigonometric functions), the per-joint
Dice similarity of a joint with itself is `1.0`; in particular, when both
rasterized masks are empty the `im_sum == 0` branch returns the
`empty_score` of `1.0` rather than dividing `0/0`. -/
theorem dice_similarity_self (W H : ℤ) (cosf sinf : ℚ → ℚ) (j : Joint)
    (size : ℕ × ℕ) : Joint.dice_similarity W H cosf sinf j j size = 1 := by
  unfold Joint.dice_similarity
  exact dice_self _

/-- Claim C9: for every joint descriptor and canvas size `(w, h)` (and any
configured ROI size and trigonometric values), `build_mask` has `h` rows,
every row has `w` entries, and every entry is `0` or `1`. -/
theorem build_mask_shape (W H : ℤ) (cosf sinf : ℚ → ℚ) (j : Joint)
    (size : ℕ × ℕ) :
    (Joint.build_mask W H cosf sinf j size).length = size.2 ∧
    ((Joint.build_mask W H cosf sinf j size).all fun row =>
      (row.length == size.1) && row.all fun v => (v == 0) || (v == 1)) = true := by
  constructor
  · simp [Joint.build_mask, fillPoly]
  · simp only [Joint.build_mask, fillPoly, List.all_eq_true]
    intro row hrow
    rw [List.mem_map] at hrow
    obtain ⟨r, _, rfl⟩ := hrow
    rw [Bool.and_eq_true]
    refine ⟨by simp, ?_⟩
    rw [List.all_eq_true]
    intro v hv
    rw [List.mem_map] at hv
    obtain ⟨c, _, rfl⟩ := hv
    split <;> simp

lemma zip_map_getD (A B : List Joint) (f : Joint × Joint → ℚ)
    (h : A.length = B.length) :
    (A.zip B).map f =
      (List.range A.length).map fun i => f (A.getD i jdefault, B.getD i jdefault) := by
  induction A generalizing B with
  | nil => simp
  | cons a A ih =>
    match B, h with
    | b :: B, h =>
      have h' : A.length = B.length := by simpa using h
      rw [List.zip_cons_cons, List.map_cons, List.length_cons, List.range_succ_eq_map,
        List.map_cons, List.map_map, ih B h']
      simp [Function.comp]

lemma range_map_sum (n : ℕ) (g : ℕ → ℚ) :
    ((List.range n).map g).sum = ∑ i ∈ Finset.range n, g i := by
  induction n with
  | zero => simp
  | succ n ih =>
    rw [List.range_succ, List.map_append, List.sum_append, Finset.sum_range_succ, ih]
    simp

lemma range_filter_length (n : ℕ) (p : ℕ → Prop) [DecidablePred p] :
    ((List.range n).filter fun i => decide (p i)).length =
      (Finset.filter p (Finset.range n)).card := by
  induction n with
  | zero => simp
  | succ n ih =>
    rw [List.range_succ, List.filter_append, List.length_append, Finset.range_succ,
      Finset.filter_insert]
    by_cases hp : p n
    · rw [if_pos hp, Finset.card_insert_of_not_mem (by simp)]
      simp [hp, ih]
    · rw [if_neg hp]
      simp [hp, ih]

/-- Claim C5: for every pair of scans (and any square-root function), the
set-level Euclidean comparison returns the *sum* (not the mean) of the
per-joint Euclidean distances of the `(x, y, angle)` difference vectors when
the joint counts are equal, and fails with `ShapeMismatch` — never silent
truncation — whenever the joint counts differ. -/
theorem euclidean_distance_spec (sqrtf : ℚ → ℚ) (A B : List Joint) :
    (A.length = B.length →
      Scan.euclidean_distance sqrtf A B =
        .ok (∑ i ∈ Finset.range A.length,
          Joint.euclidean_distance sqrtf (A.getD i jdefault) (B.getD i jdefault))) ∧
    (A.length ≠ B.length →
      Scan.euclidean_distance sqrtf A B = .error CompareError.ShapeMismatch) := by
  constructor
  · intro h
    rw [Scan.euclidean_distance, if_pos h,
      zip_map_getD A B (fun p => Joint.euclidean_distance sqrtf p.1 p.2) h, range_map_sum]
  · intro h
    rw [Scan.euclidean_distance, if_neg h]

/-- Witness for `euclidean_distance_spec`: equal-length lists give the sum,
and a `1`-versus-`0`-joint comparison fails with `ShapeMismatch`. -/
theorem euclidean_distance_spec_witness :
    Scan.euclidean_distance id [jdefault] [jdefault] =
      .ok (∑ i ∈ Finset.range 1,
        Joint.euclidean_distance id ([jdefault].getD i jdefault)
          ([jdefault].getD i jdefault)) ∧
    Scan.euclidean_distance id [jdefault] [] = .error CompareError.ShapeMismatch :=
  ⟨(euclidean_distance_spec id [jdefault] [jdefault]).1 rfl,
   (euclidean_distance_spec id [jdefault] []).2 (by simp)⟩

/-- Claim C3: for every pair of equal-length annotation sets (and any ROI
configuration and trigonometric values), the set-level Dice comparison
returns the mean of the per-landmark Dice scores, and the `count_over`
variant additionally returns the count of landmarks whose Dice score meets
or exceeds the threshold. -/
theorem dice_similarity_mean_count (W H : ℤ) (cosf sinf : ℚ → ℚ)
    (A B : List Joint) (size : ℕ × ℕ) (thr : ℚ) (h : A.length = B.length) :
    Scan.dice_similarity W H cosf sinf A B size =
      .ok ((∑ i ∈ Finset.range A.length,
          Joint.dice_similarity W H cosf sinf (A.getD i jdefault) (B.getD i jdefault)
            size) / (A.length : ℚ)) ∧
    Scan.dice_similarity_count W H cosf sinf A B size thr =
      .ok ((∑ i ∈ Finset.range A.length,
          Joint.dice_similarity W H cosf sinf (A.getD i jdefault) (B.getD i jdefault)
            size) / (A.length : ℚ),
        (Finset.filter
          (fun i => thr ≤ Joint.dice_similarity W H cosf sinf (A.getD i jdefault)
            (B.getD i jdefault) size)
          (Finset.range A.length)).card) := by
  have hmap := zip_map_getD A B
    (fun p => Joint.dice_similarity W H cosf sinf p.1 p.2 size) h
  constructor
  · rw [Scan.dice_similarity, if_pos h, hmap, range_map_sum]
  · rw [Scan.dice_similarity_count, if_pos h]
    simp only [hmap, range_map_sum, List.filter_map, List.length_map]
    rw [show ((fun d => decide (thr ≤ d)) ∘ fun i =>
        Joint.dice_similarity W H cosf sinf (A.getD i jdefault) (B.getD i jdefault) size) =
      fun i => decide (thr ≤ Joint.dice_similarity W H cosf sinf (A.getD i jdefault)
        (B.getD i jdefault) size) from rfl]
    rw [range_filter_length]

/-- Witness for `dice_similarity_mean_count` at a one-joint pair with a
`2 × 2` canvas. -/
theorem dice_similarity_mean_count_witness :
    Scan.dice_similarity 2 2 (fun _ => 1) (fun _ => 0) [jdefault] [jdefault] (2, 2) =
      .ok ((∑ i ∈ Finset.range 1,
          Joint.dice_similarity 2 2 (fun _ => 1) (fun _ => 0)
            ([jdefault].getD i jdefault) ([jdefault].getD i jdefault) (2, 2)) /
        ((1 : ℕ) : ℚ)) ∧
    Scan.dice_similarity_count 2 2 (fun _ => 1) (fun _ => 0) [jdefault] [jdefault]
        (2, 2) (1 / 2) =
      .ok ((∑ i ∈ Finset.range 1,
          Joint.dice_similarity 2 2 (fun _ => 1) (fun _ => 0)
            ([jdefault].getD i jdefault) ([jdefault].getD i jdefault) (2, 2)) /
        ((1 : ℕ) : ℚ),
        (Finset.filter
          (fun i => 1 / 2 ≤ Joint.dice_similarity 2 2 (fun _ => 1) (fun _ => 0)
            ([jdefault].getD i jdefault) ([jdefault].getD i jdefault) (2, 2))
          (Finset.range 1)).card) :=
  dice_similarity_mean_count 2 2 (fun _ => 1) (fun _ => 0) [jdefault] [jdefault]
    (2, 2) (1 / 2) rfl

lemma decimalOk_natChars (n : ℕ) : decimalOk (natChars n) = true := by
  obtain ⟨c, cs, hcc⟩ := List.exists_cons_of_ne_nil (natChars_ne_nil n)
  rw [decimalOk, Bool.and_eq_true]
  constructor
  · rw [hcc]
    rfl
  · rw [List.all_eq_true]
    intro x hx
    simpa using natChars_all_digit n x hx

lemma pySplit_no_sep (sep : Char) (xs : PyStr) (h : sep ∉ xs) :
    pySplit sep xs = [xs] := by
  induction xs with
  | nil => rfl
  | cons c cs ih =>
    have hc : ¬ c = sep := fun hc => h (hc ▸ List.mem_cons_self c cs)
    have hcs : sep ∉ cs := fun hm => h (List.mem_cons_of_mem c hm)
    rw [pySplit, if_neg hc, ih hcs]

lemma pySplit_append (sep : Char) (xs rest : PyStr) (h : sep ∉ xs) :
    pySplit sep (xs ++ sep :: rest) = xs :: pySplit sep rest := by
  induction xs with
  | nil => rw [List.nil_append, pySplit, if_pos rfl]
  | cons c cs ih =>
    have hc : ¬ c = sep := fun hc => h (hc ▸ List.mem_cons_self c cs)
    have hcs : sep ∉ cs := fun hm => h (List.mem_cons_of_mem c hm)
    rw [List.cons_append, pySplit, if_neg hc, ih hcs]

lemma mem_natChars_toNat {n : ℕ} {c : Char} (h : c ∈ natChars n) :
    48 ≤ c.toNat ∧ c.toNat ≤ 57 := by
  have hd := natChars_all_digit n c h
  rw [isDigitChar, Bool.and_eq_true, decide_eq_true_eq, decide_eq_true_eq] at hd
  exact hd

lemma natChars_ne_dash {n : ℕ} {c : Char} (h : c ∈ natChars n) : ¬ c = '-' := by
  intro hc
  subst hc
  have h48 := (mem_natChars_toNat h).1
  have h45 : ('-').toNat = 45 := rfl
  omega

lemma space_not_mem_natChars (n : ℕ) : ' ' ∉ natChars n := by
  intro h
  have h48 := (mem_natChars_toNat h).1
  have h32 : (' ').toNat = 32 := rfl
  omega

lemma space_not_mem_intChars (i : ℤ) : ' ' ∉ intChars i := by
  unfold intChars
  split
  · intro h
    rcases List.mem_cons.mp h with h | h
    · exact absurd h (by decide)
    · exact space_not_mem_natChars _ h
  · exact space_not_mem_natChars _

lemma parseInt_intChars (i : ℤ) : parseInt (intChars i) = some i := by
  by_cases hi : i < 0
  · rw [intChars, if_pos hi, parseInt, if_pos rfl, if_pos (decimalOk_natChars _),
      parseNat_natChars]
    congr 1
    omega
  · rw [intChars, if_neg hi]
    obtain ⟨c, cs, hcc⟩ := List.exists_cons_of_ne_nil (natChars_ne_nil i.natAbs)
    rw [hcc, parseInt, if_neg (natChars_ne_dash (hcc ▸ List.mem_cons_self c cs)), ← hcc,
      if_pos (decimalOk_natChars _), parseNat_natChars]
    congr 1
    omega

lemma dropWhile_no (p : Char → Bool) (cs : PyStr) (h : ∀ c ∈ cs, p c = false) :
    cs.dropWhile p = cs := by
  cases cs with
  | nil => rfl
  | cons c cs =>
    rw [List.dropWhile_cons, if_neg (by simp [h c (List.mem_cons_self c cs)])]

lemma pyStrip_no_space (cs : PyStr) (h : ∀ c ∈ cs, pyIsSpace c = false) :
    pyStrip cs = cs := by
  unfold pyStrip
  rw [dropWhile_no _ _ h, dropWhile_no _ _ (fun c hc => h c (List.mem_reverse.mp hc)),
    List.reverse_reverse]

/-- Claim C8: for every joint with integer coordinates, a whitespace-free
label, and a float angle (with the runtime's float formatting, assumed — as
Python's `repr` guarantees — to round-trip the angle and to print no space),
parsing the save-formatted line reproduces the joint exactly; hence
serializing an annotation set and re-parsing it reproduces every landmark. -/
theorem from_line_save_format (showFloat : ℚ → PyStr) (parseFloat : PyStr → Option ℚ)
    (j : Joint)
    (hlbl : ∀ c ∈ j.label, pyIsSpace c = false)
    (hshow : ' ' ∉ showFloat j.angle)
    (hparse : parseFloat (showFloat j.angle) = some j.angle) :
    Joint.from_line parseFloat (Joint.save_format showFloat j) = some j := by
  have hlsp : ' ' ∉ j.label := fun hm => by
    have hf := hlbl ' ' hm
    rw [show pyIsSpace ' ' = true from rfl] at hf
    exact Bool.noConfusion hf
  rw [Joint.from_line, Joint.save_format,
    pySplit_append ' ' j.label _ hlsp,
    pySplit_append ' ' (intChars j.x) _ (space_not_mem_intChars j.x),
    pySplit_append ' ' (intChars j.y) _ (space_not_mem_intChars j.y),
    pySplit_no_sep ' ' (showFloat j.angle) hshow,
    parseFields, parseInt_intChars, parseInt_intChars, hparse]
  show some (⟨j.x, j.y, j.angle, pyStrip j.label⟩ : Joint) = some j
  rw [pyStrip_no_space j.label hlbl]

/-- Witness for `from_line_save_format`: the joint `(-3, 7, 0, "mcp2")` with
a concrete zero-formatting float pair. -/
theorem from_line_save_format_witness :
    Joint.from_line (fun cs => if cs = ['0'] then some 0 else none)
        (Joint.save_format (fun _ => ['0']) ⟨-3, 7, 0, pystr ("mcp2")⟩) =
      some ⟨-3, 7, 0, pystr ("mcp2")⟩ :=
  from_line_save_format (fun _ => ['0']) (fun cs => if cs = ['0'] then some 0 else none)
    ⟨-3, 7, 0, pystr ("mcp2")⟩ (by decide) (by decide)
    (by
      show (if (['0'] : PyStr) = ['0'] then some (0 : ℚ) else none) = some (0 : ℚ)
      rw [if_pos rfl])

/-- Witness for `select_qof_grouped`: two concrete groups with distinct keys;
within `S1` the string-maximal score is `"9"` (of `f1`). -/
theorem select_qof_grouped_witness :
    select_qof (([(⟨pystr ("S1"), pystr ("f1"), pystr ("9")⟩,
          [⟨pystr ("S1"), pystr ("f2"), pystr ("10")⟩]),
        (⟨pystr ("S2"), pystr ("g1"), pystr ("1")⟩, [])].map
          fun g => g.1 :: g.2).flatten) =
      some ([(⟨pystr ("S1"), pystr ("f1"), pystr ("9")⟩,
          [⟨pystr ("S1"), pystr ("f2"), pystr ("10")⟩]),
        (⟨pystr ("S2"), pystr ("g1"), pystr ("1")⟩, [])].map
          fun g => (g.1.pv, (groupMax g.1 g.2).file)) :=
  select_qof_grouped _ (by decide) (by decide) (by decide)

